import Mathlib

/-!
Verification of the `reverse_lines` reverse line reader (`src/lib.rs`).

The reader iterates the logical lines of a seekable byte source in reverse
order.  We embed the code shallowly:

* bytes are `Nat` (the code only compares against the `LF` and `CR` byte
  values);
* the reader state `ReverseLines` carries exactly the fields of the Rust
  struct other than the underlying reader itself: `reader_pos`, `buf_size`,
  `is_error`;
* the underlying in-memory source is a `List Nat` passed explicitly;
* the unbounded `loop` in `Iterator::next` becomes a fuel-indexed function
  `next_loop`; the outer `Option` is `none` exactly when the fuel runs out
  (which we prove cannot happen when the chunk size is at least 1);
* `String::from_utf8` becomes the standard UTF-8 validation `utf8Valid`
  (RFC 3629, as implemented by Rust's standard library); items carry the
  decoded bytes, since on success `String::from_utf8` is the identity on
  the underlying bytes.

A second family of definitions (`readFal`, `nextFal_loop`, ...) models a
fallible source: an oracle `fails : Nat → Bool` says whether the n-th
seek/read operation issued to the source fails, which is how `io::Error`
results from `seek`/`read_exact` enter `next`.
-/

namespace ReverseLinesSpec

/-- `b'\n'` (src/lib.rs line 45). -/
def LF_BYTE : Nat := 10

/-- `b'\r'` (src/lib.rs line 46). -/
def CR_BYTE : Nat := 13

/-- `DEFAULT_SIZE` (src/lib.rs line 43). -/
def DEFAULT_SIZE : Nat := 4096

/-- Is `c` a UTF-8 continuation byte (`0x80..=0xBF`)? -/
def isCont (c : Nat) : Bool := 0x80 ≤ c && c ≤ 0xBF

/-- Allowed second byte after a three-byte lead `b` (RFC 3629 table). -/
def utf8Second3 (b c : Nat) : Bool :=
  if b = 0xE0 then 0xA0 ≤ c && c ≤ 0xBF
  else if b = 0xED then 0x80 ≤ c && c ≤ 0x9F
  else isCont c

/-- Allowed second byte after a four-byte lead `b` (RFC 3629 table). -/
def utf8Second4 (b c : Nat) : Bool :=
  if b = 0xF0 then 0x90 ≤ c && c ≤ 0xBF
  else if b = 0xF4 then 0x80 ≤ c && c ≤ 0x8F
  else isCont c

/-- UTF-8 validity of a byte sequence, as checked by `String::from_utf8`. -/
def utf8Valid : List Nat → Bool
  | [] => true
  | b :: rest =>
    if b ≤ 0x7F then utf8Valid rest
    else if 0xC2 ≤ b && b ≤ 0xDF then
      match rest with
      | c1 :: rest1 => isCont c1 && utf8Valid rest1
      | [] => false
    else if 0xE0 ≤ b && b ≤ 0xEF then
      match rest with
      | c1 :: c2 :: rest2 => utf8Second3 b c1 && isCont c2 && utf8Valid rest2
      | _ => false
    else if 0xF0 ≤ b && b ≤ 0xF4 then
      match rest with
      | c1 :: c2 :: c3 :: rest3 =>
        utf8Second4 b c1 && isCont c2 && isCont c3 && utf8Valid rest3
      | _ => false
    else false

/-- The state of the reader: the fields of the Rust `ReverseLines` struct
other than the wrapped reader (src/lib.rs lines 49-54). -/
structure ReverseLines where
  reader_pos : Nat
  buf_size : Nat
  is_error : Bool
deriving Repr, DecidableEq

/-- One item of the iterator: `Ok(line)`, an I/O error, or the
`ErrorKind::InvalidData` error wrapping a `FromUtf8Error`. -/
inductive Item where
  | ok (bytes : List Nat)
  | ioError
  | decodeError
deriving Repr, DecidableEq

/-- The `size` bytes of `data` that end at offset `pos` (what a
seek-back/`read_exact`/seek-back sequence at synced position `pos`
returns). -/
def sliceEnd (data : List Nat) (pos size : Nat) : List Nat :=
  (data.take pos).drop (pos - size)

/-- `ReverseLines::read_to_buffer` (src/lib.rs lines 100-111) for an
in-memory source: return the `size` bytes before the current position and
move `reader_pos` back by `size`.  (For an in-memory source in range, the
three underlying I/O operations cannot fail.) -/
def read_to_buffer (data : List Nat) (s : ReverseLines) (size : Nat) :
    List Nat × ReverseLines :=
  (sliceEnd data s.reader_pos size, { s with reader_pos := s.reader_pos - size })

/-- `ReverseLines::move_reader_position` (src/lib.rs lines 113-118). -/
def move_reader_position (s : ReverseLines) (offset : Nat) : ReverseLines :=
  { s with reader_pos := s.reader_pos + offset }

/-- `ReverseLines::with_capacity` (src/lib.rs lines 65-98) for an in-memory
source: seek to the end, then normalize away a trailing terminator by
reading the final `min (length, 2)` bytes and checking them independently
against `CR` and `LF`. -/
def with_capacity (cap : Nat) (data : List Nat) : ReverseLines :=
  let reader_size := data.length
  let s0 : ReverseLines :=
    { reader_pos := reader_size, buf_size := cap, is_error := false }
  let end_size := min reader_size 2
  let r := read_to_buffer data s0 end_size
  let end_buf := r.1
  let s1 := r.2
  if end_size = 1 then
    if end_buf.getD 0 0 ≠ LF_BYTE then move_reader_position s1 1 else s1
  else if end_size = 2 then
    let s2 := if end_buf.getD 0 0 ≠ CR_BYTE then move_reader_position s1 1 else s1
    if end_buf.getD 1 0 ≠ LF_BYTE then move_reader_position s2 1 else s2
  else
    s1

/-- `ReverseLines::new` (src/lib.rs lines 59-61). -/
def new (data : List Nat) : ReverseLines :=
  with_capacity DEFAULT_SIZE data

/-- The backward scan `for (idx, ch) in buf.iter().enumerate().rev()`
(src/lib.rs lines 146-170), examining indices `i-1, i-2, ..., 0` of `buf`.
On finding `LF` at index `j` it returns the reposition offset: `j`, lowered
to `j - 1` when `j > 1` and `buf[j-1] = CR` (the literal `idx > 1` test of
line 152).  Otherwise the byte is pushed onto the accumulating line. -/
def scanFrom (buf : List Nat) : Nat → List Nat → Option Nat × List Nat
  | 0, acc => (none, acc)
  | j + 1, acc =>
    let ch := buf.getD j 0
    if ch = LF_BYTE then
      (some (if j > 1 ∧ buf.getD (j - 1) 0 = CR_BYTE then j - 1 else j), acc)
    else
      scanFrom buf j (acc ++ [ch])

/-- Lines 180-184 of src/lib.rs: reverse the accumulated bytes and decode. -/
def finalizeLine (result : List Nat) : Item :=
  if utf8Valid result.reverse then Item.ok result.reverse else Item.decodeError

/-- The `'outer: loop` of `Iterator::next` (src/lib.rs lines 131-178) for an
in-memory source, with explicit fuel.  Returns `none` exactly when the fuel
runs out; otherwise `some (item?, final state)` where `item? = none` models
the iterator returning `None`. -/
def next_loop (data : List Nat) :
    Nat → ReverseLines → List Nat → Option (Option Item × ReverseLines)
  | 0, _, _ => none
  | fuel + 1, s, result =>
    if s.reader_pos < 1 then
      if result = [] then some (none, s)
      else some (some (finalizeLine result), s)
    else
      let size := min s.buf_size s.reader_pos
      let r := read_to_buffer data s size
      let buf := r.1
      let s1 := r.2
      match scanFrom buf buf.length result with
      | (some offset, result1) =>
        some (some (finalizeLine result1),
              { s1 with reader_pos := s1.reader_pos + offset })
      | (none, result1) => next_loop data fuel s1 result1

/-- `Iterator::next` (src/lib.rs lines 124-186) for an in-memory source. -/
def next (data : List Nat) (fuel : Nat) (s : ReverseLines) :
    Option (Option Item × ReverseLines) :=
  if s.is_error then some (none, s) else next_loop data fuel s []

/-- Call `next` up to `k` times, collecting the produced items; stops at the
first call that produces no item.  Each call gets fuel `reader_pos + 1`,
which suffices whenever the chunk size is at least 1. -/
def runNexts (data : List Nat) : Nat → ReverseLines → List Item
  | 0, _ => []
  | k + 1, s =>
    match next data (s.reader_pos + 1) s with
    | some (some item, s') => item :: runNexts data k s'
    | _ => []

/-- The complete item sequence of a reader over `data` constructed with
chunk size `cap` (for `cap ≥ 1`, `data.length + 1` calls are enough to
reach exhaustion). -/
def reverseLinesOutput (cap : Nat) (data : List Nat) : List Item :=
  runNexts data (data.length + 1) (with_capacity cap data)

/-! ### The fallible-source model

The oracle `fails : Nat → Bool` says whether the `n`-th I/O operation issued
to the underlying reader fails; `ops` counts operations issued so far.  A
successful operation behaves like the in-memory source.  `read_to_buffer`
issues three operations (seek, `read_exact`, seek), the repositioning in the
`LF` branch of `next` issues one. -/

/-- The oracle of a source whose operations never fail. -/
def noFail : Nat → Bool := fun _ => false

/-- Fallible `read_to_buffer`: `none` models `Err(e)` (the caller sets
`is_error` and stops, so the state on the error path is irrelevant). -/
def readFal (data : List Nat) (fails : Nat → Bool) (s : ReverseLines)
    (ops size : Nat) : Option (List Nat × ReverseLines × Nat) :=
  if fails ops || fails (ops + 1) || fails (ops + 2) then none
  else some (sliceEnd data s.reader_pos size,
             { s with reader_pos := s.reader_pos - size }, ops + 3)

/-- The `'outer: loop` of `Iterator::next` against a fallible source.  A
failing `read_to_buffer` or repositioning seek sets `is_error` and yields
`Some(Err(e))` (src/lib.rs lines 162-165 and 173-176). -/
def nextFal_loop (data : List Nat) (fails : Nat → Bool) :
    Nat → ReverseLines → Nat → List Nat → Option (Option Item × ReverseLines × Nat)
  | 0, _, _, _ => none
  | fuel + 1, s, ops, result =>
    if s.reader_pos < 1 then
      if result = [] then some (none, s, ops)
      else some (some (finalizeLine result), s, ops)
    else
      let size := min s.buf_size s.reader_pos
      match readFal data fails s ops size with
      | none => some (some Item.ioError, { s with is_error := true }, ops)
      | some (buf, s1, ops1) =>
        match scanFrom buf buf.length result with
        | (some offset, result1) =>
          if fails ops1 then
            some (some Item.ioError, { s1 with is_error := true }, ops1)
          else
            some (some (finalizeLine result1),
                  { s1 with reader_pos := s1.reader_pos + offset }, ops1 + 1)
        | (none, result1) => nextFal_loop data fails fuel s1 ops1 result1

/-- `Iterator::next` against a fallible source: the `is_error` check of
src/lib.rs lines 125-127, then the loop. -/
def nextFal (data : List Nat) (fails : Nat → Bool) (fuel : Nat)
    (s : ReverseLines) (ops : Nat) : Option (Option Item × ReverseLines × Nat) :=
  if s.is_error then some (none, s, ops) else nextFal_loop data fails fuel s ops []

/-- Iterate `nextFal` `n` times from a state/op-counter pair, keeping the
final pair (each call gets fuel `reader_pos + 1`). -/
def iterFal (data : List Nat) (fails : Nat → Bool) :
    Nat → ReverseLines × Nat → ReverseLines × Nat
  | 0, p => p
  | n + 1, p =>
    match nextFal data fails (p.1.reader_pos + 1) p.1 p.2 with
    | some (_, s', ops') => iterFal data fails n (s', ops')
    | none => p

/-! ### Specification-side functions (pure descriptions of line structure) -/

/-- Split `l` at its last `LF`: `(a, some seg)` when `l = a ++ LF :: seg`
with `LF ∉ seg`, and `(l, none)` when `l` contains no `LF`. -/
def splitLastLF : List Nat → List Nat × Option (List Nat)
  | [] => ([], none)
  | c :: l =>
    match splitLastLF l with
    | (a, some seg) => (c :: a, some seg)
    | (a, none) => if c = LF_BYTE then ([], some a) else (c :: a, none)

/-- Forward split on `LF` (always returns a nonempty list of segments). -/
def splitLF : List Nat → List (List Nat)
  | [] => [[]]
  | c :: rest =>
    if c = LF_BYTE then [] :: splitLF rest
    else
      match splitLF rest with
      | s :: ss => (c :: s) :: ss
      | [] => [[c]]

/-- Join lines with a single `LF` between consecutive lines and no trailing
terminator. -/
def joinLF : List (List Nat) → List Nat
  | [] => []
  | [l] => l
  | l :: ls => l ++ LF_BYTE :: joinLF ls

/-- Remove one trailing `LF` if present (what the constructor's
normalization amounts to on CR-free data). -/
def chopTrailingLF (data : List Nat) : List Nat :=
  if data.getLast? = some LF_BYTE then data.dropLast else data

/-- The item decoding a byte segment: `Ok` when valid UTF-8. -/
def decorate (seg : List Nat) : Item :=
  if utf8Valid seg then Item.ok seg else Item.decodeError

/-- The segments of an (already chopped) prefix in reverse emission order:
reverse of the `LF`-split, except that an empty first segment is never
emitted (the scan returns `None` when the cursor reaches 0 with nothing
accumulated). -/
def revLines (pre : List Nat) : List (List Nat) :=
  match splitLF pre with
  | s :: ss => if s = [] then ((s :: ss).reverse).dropLast else (s :: ss).reverse
  | [] => []

/-! ### Sanity checks of the embedding on concrete traces -/

example : reverseLinesOutput 4096 [] = [] := by decide

example : reverseLinesOutput 4096 [65, 66, 67, 68] = [Item.ok [65, 66, 67, 68]] := by decide

example : reverseLinesOutput 4096 [65, 10, 66, 67] = [Item.ok [66, 67], Item.ok [65]] := by
  decide

example : reverseLinesOutput 4096 [65, 13, 10, 66] = [Item.ok [66], Item.ok [65]] := by
  decide

example : reverseLinesOutput 4096 [65, 10] = [Item.ok [65]] := by decide

example : reverseLinesOutput 4096 [65, 13, 10] = [Item.ok [65]] := by decide

example : utf8Valid [255] = false := by decide

example : utf8Valid [0xC3, 0xA9] = true := by decide

example : utf8Valid [0xE2, 0x82, 0xAC] = true := by decide

example : utf8Valid [0xED, 0xA0, 0x80] = false := by decide

example : reverseLinesOutput 1 [65, 66, 13, 10, 67, 68] =
    [Item.ok [67, 68], Item.ok [65, 66, 13]] := by decide

example : reverseLinesOutput 4096 [65, 66, 13, 10, 67, 68] =
    [Item.ok [67, 68], Item.ok [65, 66]] := by decide

example : reverseLinesOutput 4096 [65, 13, 66] = [Item.ok [65, 13]] := by decide

example : reverseLinesOutput 4096 [10, 65] = [Item.ok [65]] := by decide

example : reverseLinesOutput 4096 [13, 10, 67, 68] = [Item.ok [67, 68], Item.ok [13]] := by
  decide

example : nextFal [65] (fun _ => true) 2 ⟨1, 1, false⟩ 0 =
    some (some Item.ioError, ⟨1, 1, true⟩, 0) := by decide

example : nextFal [65] (fun _ => true) 2 ⟨1, 1, true⟩ 0 =
    some (none, ⟨1, 1, true⟩, 0) := by decide

example : nextFal [255] noFail 2 ⟨1, 1, false⟩ 0 =
    some (some Item.decodeError, ⟨0, 1, false⟩, 3) := by decide

/-! ### Unfolding lemmas for stepping a run one `next` call at a time -/

/-- Step `runNexts` past one item-producing call. -/
theorem runNexts_cons (data : List Nat) (k : Nat) (s s' : ReverseLines) (it : Item)
    (h : next data (s.reader_pos + 1) s = some (some it, s')) :
    runNexts data (k + 1) s = it :: runNexts data k s' := by
  simp only [runNexts, h]

/-- A call producing no item ends the run. -/
theorem runNexts_stop (data : List Nat) (k : Nat) (s s' : ReverseLines)
    (h : next data (s.reader_pos + 1) s = some (none, s')) :
    runNexts data (k + 1) s = [] := by
  simp only [runNexts, h]

example : reverseLinesOutput 4096 [65, 66, 67, 68, 10, 10, 88, 89, 90, 10, 10, 10] =
    [Item.ok [], Item.ok [], Item.ok [88, 89, 90], Item.ok [], Item.ok [65, 66, 67, 68]] := by
  show runNexts [65, 66, 67, 68, 10, 10, 88, 89, 90, 10, 10, 10] 13 ⟨11, 4096, false⟩ = _
  rw [runNexts_cons _ 12 _ ⟨10, 4096, false⟩ (Item.ok []) (by decide),
    runNexts_cons _ 11 _ ⟨9, 4096, false⟩ (Item.ok []) (by decide),
    runNexts_cons _ 10 _ ⟨5, 4096, false⟩ (Item.ok [88, 89, 90]) (by decide),
    runNexts_cons _ 9 _ ⟨4, 4096, false⟩ (Item.ok []) (by decide),
    runNexts_cons _ 8 _ ⟨0, 4096, false⟩ (Item.ok [65, 66, 67, 68]) (by decide),
    runNexts_stop _ 7 _ ⟨0, 4096, false⟩ (by decide)]

example : reverseLinesOutput 4096 [65, 66, 10, 255, 10, 67, 68] =
    [Item.ok [67, 68], Item.decodeError, Item.ok [65, 66]] := by
  show runNexts [65, 66, 10, 255, 10, 67, 68] 8 ⟨7, 4096, false⟩ = _
  rw [runNexts_cons _ 7 _ ⟨4, 4096, false⟩ (Item.ok [67, 68]) (by decide),
    runNexts_cons _ 6 _ ⟨2, 4096, false⟩ Item.decodeError (by decide),
    runNexts_cons _ 5 _ ⟨0, 4096, false⟩ (Item.ok [65, 66]) (by decide),
    runNexts_stop _ 4 _ ⟨0, 4096, false⟩ (by decide)]

/-! ### Structure lemmas for `splitLastLF` -/

theorem splitLastLF_none_eq :
    ∀ {l a : List Nat}, splitLastLF l = (a, none) → a = l ∧ LF_BYTE ∉ l := by
  intro l
  induction l with
  | nil =>
    intro a h
    simp only [splitLastLF, Prod.mk.injEq] at h
    simp [← h.1]
  | cons c l ih =>
    intro a h
    rcases hl : splitLastLF l with ⟨a', so⟩
    cases so with
    | some seg => simp [splitLastLF, hl] at h
    | none =>
      by_cases hc : c = LF_BYTE
      · simp [splitLastLF, hl, hc] at h
      · simp only [splitLastLF, hl, if_neg hc, Prod.mk.injEq] at h
        obtain ⟨ha, hmem⟩ := ih hl
        subst ha
        simp [← h.1, hc, hmem, Ne.symm hc]

theorem splitLastLF_of_not_mem :
    ∀ {l : List Nat}, LF_BYTE ∉ l → splitLastLF l = (l, none) := by
  intro l
  induction l with
  | nil => intro _; rfl
  | cons c l ih =>
    intro h
    have hc : c ≠ LF_BYTE := fun hc => h (hc ▸ List.mem_cons_self c l)
    have hl : LF_BYTE ∉ l := fun hm => h (List.mem_cons_of_mem c hm)
    simp [splitLastLF, ih hl, hc]

theorem splitLastLF_some_eq :
    ∀ {l a seg : List Nat}, splitLastLF l = (a, some seg) →
      l = a ++ LF_BYTE :: seg ∧ LF_BYTE ∉ seg := by
  intro l
  induction l with
  | nil => intro a seg h; simp [splitLastLF] at h
  | cons c l ih =>
    intro a seg h
    rcases hl : splitLastLF l with ⟨a', so⟩
    cases so with
    | some seg' =>
      simp only [splitLastLF, hl, Prod.mk.injEq, Option.some.injEq] at h
      obtain ⟨hstruct, hmem⟩ := ih hl
      refine ⟨?_, h.2 ▸ hmem⟩
      rw [← h.1, ← h.2, hstruct]
      rfl
    | none =>
      by_cases hc : c = LF_BYTE
      · simp only [splitLastLF, hl, if_pos hc, Prod.mk.injEq, Option.some.injEq] at h
        obtain ⟨ha', hmem⟩ := splitLastLF_none_eq hl
        subst ha'
        simp [← h.1, ← h.2, hc, hmem]
      · simp [splitLastLF, hl, hc] at h

theorem splitLastLF_append_some {ys b seg : List Nat}
    (h : splitLastLF ys = (b, some seg)) :
    ∀ xs : List Nat, splitLastLF (xs ++ ys) = (xs ++ b, some seg) := by
  intro xs
  induction xs with
  | nil => simpa using h
  | cons c xs ih => simp [splitLastLF, ih]

theorem splitLastLF_append_not_mem :
    ∀ (xs : List Nat) {ys : List Nat}, LF_BYTE ∉ ys →
      splitLastLF (xs ++ ys) =
        (match splitLastLF xs with
         | (a, some seg) => (a, some (seg ++ ys))
         | (a, none) => (a ++ ys, none)) := by
  intro xs
  induction xs with
  | nil =>
    intro ys hy
    simp [splitLastLF, splitLastLF_of_not_mem hy]
  | cons c xs ih =>
    intro ys hy
    rcases hx : splitLastLF xs with ⟨a', so⟩
    cases so with
    | some seg' =>
      have := ih hy
      rw [hx] at this
      simp [splitLastLF, this, hx]
    | none =>
      have := ih hy
      rw [hx] at this
      by_cases hc : c = LF_BYTE
      · obtain ⟨ha', hmem⟩ := splitLastLF_none_eq hx
        subst ha'
        simp [splitLastLF, this, hx, hc]
      · simp [splitLastLF, this, hx, hc]

/-! ### List helpers -/

theorem take_succ_getD :
    ∀ (l : List Nat) (j : Nat), j < l.length →
      l.take (j + 1) = l.take j ++ [l.getD j 0]
  | c :: l, 0, _ => rfl
  | c :: l, j + 1, h => by
    have := take_succ_getD l j (by simpa using h)
    simp [List.take_succ_cons, this, List.getD_cons_succ]
  | [], j, h => by simp at h

theorem getD_mem : ∀ (l : List Nat) (j : Nat), j < l.length → l.getD j 0 ∈ l
  | c :: l, 0, _ => List.mem_cons_self c l
  | c :: l, j + 1, h =>
    List.mem_cons_of_mem c (getD_mem l j (by simpa using h))
  | [], j, h => by simp at h

/-! ### `sliceEnd` helpers -/

theorem sliceEnd_length {data : List Nat} {pos size : Nat} (hpos : pos ≤ data.length)
    (hsize : size ≤ pos) : (sliceEnd data pos size).length = size := by
  simp only [sliceEnd, List.length_drop, List.length_take]
  omega

theorem take_split (data : List Nat) (pos size : Nat) (hsize : size ≤ pos) :
    data.take pos = data.take (pos - size) ++ sliceEnd data pos size := by
  conv_lhs => rw [← List.take_append_drop (pos - size) (data.take pos)]
  rw [List.take_take, sliceEnd]
  congr 2
  omega

/-! ### The backward chunk scan implements `splitLastLF` on CR-free chunks -/

theorem scanFrom_spec (buf : List Nat) (hCR : CR_BYTE ∉ buf) :
    ∀ (i : Nat), i ≤ buf.length → ∀ acc : List Nat,
      scanFrom buf i acc =
        match splitLastLF (buf.take i) with
        | (a, some seg) => (some a.length, acc ++ seg.reverse)
        | (a, none) => (none, acc ++ a.reverse) := by
  intro i
  induction i with
  | zero =>
    intro _ acc
    simp [scanFrom, splitLastLF]
  | succ j ih =>
    intro hij acc
    have hj : j < buf.length := by omega
    have htake := take_succ_getD buf j hj
    by_cases hch : buf.getD j 0 = LF_BYTE
    · have hsplit1 : splitLastLF [LF_BYTE] = ([], some []) := rfl
      have hsplit : splitLastLF (buf.take (j + 1)) = (buf.take j, some []) := by
        rw [htake, hch]
        simpa using splitLastLF_append_some hsplit1 (buf.take j)
      have hcr : ¬(j > 1 ∧ buf.getD (j - 1) 0 = CR_BYTE) := by
        rintro ⟨hj1, hcr⟩
        exact hCR (hcr ▸ getD_mem buf (j - 1) (by omega))
      have hlen : (buf.take j).length = j := by
        simp [List.length_take]
        omega
      rw [hsplit]
      rw [scanFrom, if_pos hch, if_neg hcr]
      simp [hlen]
    · have hnotlf : LF_BYTE ∉ [buf.getD j 0] := by
        intro hmem
        exact hch (List.mem_singleton.mp hmem).symm
      have hsplit := splitLastLF_append_not_mem (buf.take j) hnotlf
      rw [← htake] at hsplit
      rw [scanFrom, if_neg hch, ih (by omega) (acc ++ [buf.getD j 0]), hsplit]
      rcases hsp : splitLastLF (buf.take j) with ⟨a, so⟩
      cases so with
      | some seg => simp [List.reverse_append]
      | none => simp [List.reverse_append]

/-! ### The chunked loop of `next` implements `splitLastLF` on CR-free prefixes -/

theorem next_loop_spec (data : List Nat) :
    ∀ (fuel : Nat) (s : ReverseLines) (result : List Nat),
      s.reader_pos ≤ data.length → 1 ≤ s.buf_size → s.reader_pos + 1 ≤ fuel →
      CR_BYTE ∉ data.take s.reader_pos →
      next_loop data fuel s result =
        match splitLastLF (data.take s.reader_pos) with
        | (a, some seg) =>
          some (some (finalizeLine (result ++ seg.reverse)),
                ⟨a.length, s.buf_size, s.is_error⟩)
        | (a, none) =>
          if result = [] ∧ a = [] then some (none, ⟨0, s.buf_size, s.is_error⟩)
          else some (some (finalizeLine (result ++ a.reverse)),
                     ⟨0, s.buf_size, s.is_error⟩) := by
  intro fuel
  induction fuel with
  | zero =>
    intro s result _ _ hfuel _
    omega
  | succ fuel ih =>
    rintro ⟨pos, cap, err⟩ result hpos hcap hfuel hcr
    simp only at hpos hcap hfuel hcr
    by_cases hp : pos < 1
    · have hp0 : pos = 0 := by omega
      subst hp0
      by_cases hres : result = []
      · simp [next_loop, splitLastLF, hres]
      · simp [next_loop, splitLastLF, hres]
    · -- pos ≥ 1: read one chunk and scan it.
      have hp1 : 1 ≤ pos := by omega
      set size := min cap pos with hsizedef
      have hsize1 : 1 ≤ size := by omega
      have hsizele : size ≤ pos := by omega
      set B := sliceEnd data pos size with hBdef
      have hBlen : B.length = size := sliceEnd_length hpos hsizele
      have hsplitpre := take_split data pos size hsizele
      have hcrB : CR_BYTE ∉ B := by
        intro hmem
        exact hcr (hsplitpre ▸ List.mem_append_right _ hmem)
      have hcrpre : CR_BYTE ∉ data.take (pos - size) := by
        intro hmem
        exact hcr (hsplitpre ▸ List.mem_append_left _ hmem)
      have hscan := scanFrom_spec B hcrB B.length (le_refl _) result
      rw [List.take_length] at hscan
      rw [next_loop]
      simp only [if_neg hp, read_to_buffer]
      rw [← hsizedef, ← hBdef, hscan]
      rcases hsB : splitLastLF B with ⟨ab, so⟩
      cases so with
      | some seg =>
        have hpre : splitLastLF (data.take pos) = (data.take (pos - size) ++ ab, some seg) := by
          rw [hsplitpre]
          exact splitLastLF_append_some hsB _
        have hlen : (data.take (pos - size) ++ ab).length = (pos - size) + ab.length := by
          simp [List.length_take]
          omega
        dsimp only
        rw [hpre]
        simp [hlen]
      | none =>
        obtain ⟨hab, hlfB⟩ := splitLastLF_none_eq hsB
        subst hab
        have hBne : B ≠ [] := by
          intro hB
          rw [hB] at hBlen
          simp at hBlen
          omega
        have hrec := ih ⟨pos - size, cap, err⟩ (result ++ B.reverse)
          (by simp; omega) (by simpa using hcap) (by simp; omega) (by simpa using hcrpre)
        simp only at hrec
        dsimp only
        rw [hrec]
        have hpre := splitLastLF_append_not_mem (data.take (pos - size)) hlfB
        rw [← hsplitpre] at hpre
        rcases hsp : splitLastLF (data.take (pos - size)) with ⟨a2, so2⟩
        cases so2 with
        | some seg2 =>
          rw [hsp] at hpre
          simp only at hpre
          rw [hpre]
          simp [List.reverse_append]
        | none =>
          rw [hsp] at hpre
          simp only at hpre
          rw [hpre]
          have hne1 : ¬(result ++ B.reverse = [] ∧ a2 = []) := by
            rintro ⟨h1, _⟩
            rcases List.append_eq_nil.mp h1 with ⟨_, h2⟩
            exact hBne (by simpa using congrArg List.reverse h2)
          have hne2 : ¬(result = [] ∧ a2 ++ B = []) := by
            rintro ⟨_, h2⟩
            exact hBne (List.append_eq_nil.mp h2).2
          simp [hne1, hne2, hBne, List.reverse_append]

/-! ### `splitLF` and `revLines` lemmas -/

theorem finalizeLine_reverse (seg : List Nat) : finalizeLine seg.reverse = decorate seg := by
  simp [finalizeLine, decorate]

theorem splitLF_ne_nil : ∀ l : List Nat, splitLF l ≠ [] := by
  intro l
  induction l with
  | nil => simp [splitLF]
  | cons c l ih =>
    by_cases hc : c = LF_BYTE
    · simp [splitLF, hc]
    · rcases hs : splitLF l with _ | ⟨s, ss⟩
      · exact absurd hs ih
      · simp [splitLF, hc, hs]

theorem splitLF_not_mem {l : List Nat} (h : LF_BYTE ∉ l) : splitLF l = [l] := by
  induction l with
  | nil => rfl
  | cons c l ih =>
    have hc : c ≠ LF_BYTE := fun hc => h (hc ▸ List.mem_cons_self c l)
    have hl : LF_BYTE ∉ l := fun hm => h (List.mem_cons_of_mem c hm)
    simp [splitLF, hc, ih hl]

theorem splitLF_append_lf (xs ys : List Nat) :
    splitLF (xs ++ LF_BYTE :: ys) = splitLF xs ++ splitLF ys := by
  induction xs with
  | nil => simp [splitLF]
  | cons c xs ih =>
    by_cases hc : c = LF_BYTE
    · simp [splitLF, hc, ih]
    · rcases hs : splitLF xs with _ | ⟨s, ss⟩
      · exact absurd hs (splitLF_ne_nil xs)
      · have ih2 : splitLF (xs ++ LF_BYTE :: ys) = s :: (ss ++ splitLF ys) := by
          rw [ih, hs]
          rfl
        simp [splitLF, hc, ih2, hs]

theorem revLines_nil : revLines [] = [] := rfl

theorem revLines_peel {pre a seg : List Nat} (h : splitLastLF pre = (a, some seg)) :
    revLines pre = seg :: revLines a := by
  obtain ⟨hstruct, hseg⟩ := splitLastLF_some_eq h
  rcases hs : splitLF a with _ | ⟨s, ss⟩
  · exact absurd hs (splitLF_ne_nil a)
  · have hsplit : splitLF pre = s :: (ss ++ [seg]) := by
      rw [hstruct, splitLF_append_lf, hs, splitLF_not_mem hseg]
      exact List.cons_append s ss [seg]
    have hrevne : (s :: ss).reverse ≠ [] := by simp
    by_cases hse : s = []
    · simp only [revLines, hsplit, hs, if_pos hse]
      rw [show s :: (ss ++ [seg]) = (s :: ss) ++ [seg] from rfl, List.reverse_append]
      simpa using List.dropLast_cons_of_ne_nil hrevne
    · simp only [revLines, hsplit, hs, if_neg hse]
      rw [show s :: (ss ++ [seg]) = (s :: ss) ++ [seg] from rfl, List.reverse_append]
      simp

theorem revLines_not_mem {pre : List Nat} (h : LF_BYTE ∉ pre) :
    revLines pre = if pre = [] then [] else [pre] := by
  rw [revLines, splitLF_not_mem h]
  by_cases hp : pre = [] <;> simp [hp]

/-! ### Iterating `next` on CR-free data yields the reversed lines -/

theorem runNexts_spec (data : List Nat) (hCR : CR_BYTE ∉ data) :
    ∀ (k : Nat) (s : ReverseLines), s.reader_pos ≤ data.length → 1 ≤ s.buf_size →
      s.is_error = false → s.reader_pos + 1 ≤ k →
      runNexts data k s = (revLines (data.take s.reader_pos)).map decorate := by
  intro k
  induction k with
  | zero =>
    intro s _ _ _ hk
    omega
  | succ k ih =>
    rintro ⟨pos, cap, err⟩ hpos hcap herr hk
    simp only at hpos hcap herr hk
    subst herr
    have hcrpre : CR_BYTE ∉ data.take pos := fun h => hCR (List.take_subset _ _ h)
    have hloop := next_loop_spec data (pos + 1) ⟨pos, cap, false⟩ []
      (by simpa) (by simpa) (le_refl _) (by simpa)
    simp only at hloop
    rw [runNexts]
    simp only [next]
    rw [if_neg (by simp)]
    rw [hloop]
    rcases hsp : splitLastLF (data.take pos) with ⟨a, so⟩
    cases so with
    | some seg =>
      obtain ⟨hstruct, _⟩ := splitLastLF_some_eq hsp
      have hlenpre : (data.take pos).length = pos := by
        simp [List.length_take]
        omega
      have halen : a.length < pos := by
        rw [hstruct] at hlenpre
        simp at hlenpre
        omega
      have htakea : data.take a.length = a := by
        have h1 : data.take a.length = (data.take pos).take a.length := by
          rw [List.take_take]
          congr 1
          omega
        rw [h1, hstruct, List.take_left]
      dsimp only
      rw [ih ⟨a.length, cap, false⟩ (by simp; omega) (by simpa) rfl (by simp; omega)]
      simp only [htakea]
      rw [revLines_peel hsp]
      simp [finalizeLine_reverse]
    | none =>
      obtain ⟨ha, hnl⟩ := splitLastLF_none_eq hsp
      subst ha
      by_cases hpre : data.take pos = []
      · have hcond : True ∧ data.take pos = [] := ⟨trivial, hpre⟩
        dsimp only
        rw [if_pos hcond, hpre]
        simp [revLines_nil]
      · have hpos1 : 1 ≤ pos := by
          rcases Nat.eq_zero_or_pos pos with h0 | h1
          · rw [h0] at hpre
            simp at hpre
          · exact h1
        have hcond : ¬(True ∧ data.take pos = []) := by simp [hpre]
        dsimp only
        rw [if_neg hcond]
        dsimp only
        rw [ih ⟨0, cap, false⟩ (by simp) (by simpa) rfl (by show 0 + 1 ≤ k; omega)]
        rw [revLines_not_mem hnl, if_neg hpre]
        simp [finalizeLine_reverse, revLines_nil]

/-! ### The constructor on CR-free data chops exactly one trailing `LF` -/

theorem with_capacity_spec (cap : Nat) (data : List Nat) (hCR : CR_BYTE ∉ data) :
    with_capacity cap data = ⟨(chopTrailingLF data).length, cap, false⟩ := by
  rcases hrev : data.reverse with _ | ⟨y, t⟩
  · have hdata : data = [] := by simpa using congrArg List.reverse hrev
    subst hdata
    rfl
  · rcases t with _ | ⟨x, t'⟩
    · have hdata : data = [y] := by
        have := congrArg List.reverse hrev
        simpa using this
      subst hdata
      by_cases hy : y = LF_BYTE
      · simp [with_capacity, read_to_buffer, sliceEnd, move_reader_position,
          chopTrailingLF, hy]
      · simp [with_capacity, read_to_buffer, sliceEnd, move_reader_position,
          chopTrailingLF, hy]
    · have hdata : data = t'.reverse ++ [x, y] := by
        have := congrArg List.reverse hrev
        simpa using this
      have hlen : data.length = t'.length + 2 := by
        rw [hdata]
        simp
      have hx : x ∈ data := by
        rw [hdata]
        simp
      have hxcr : x ≠ CR_BYTE := fun h => hCR (h ▸ hx)
      have hslice : sliceEnd data data.length 2 = [x, y] := by
        rw [sliceEnd, List.take_length, hlen, hdata]
        have : t'.length + 2 - 2 = t'.reverse.length := by simp
        rw [this, List.drop_left]
      have hend : min data.length 2 = 2 := by omega
      have hlast : data.getLast? = some y := by
        rw [hdata, show t'.reverse ++ [x, y] = (t'.reverse ++ [x]) ++ [y] by simp]
        exact List.getLast?_concat _
      have hdroplast : data.dropLast.length = t'.length + 1 := by
        rw [hdata, show t'.reverse ++ [x, y] = (t'.reverse ++ [x]) ++ [y] by simp,
          List.dropLast_concat]
        simp
      have hxcr13 : ¬(x = 13) := hxcr
      by_cases hy : y = LF_BYTE
      · have hy10 : y = 10 := hy
        have hcond : data.getLast? = some LF_BYTE := by rw [hlast, hy]
        rw [with_capacity]
        simp only [read_to_buffer, hend, hslice]
        rw [chopTrailingLF, if_pos hcond]
        simp [move_reader_position, hxcr13, hy10, ReverseLines.mk.injEq, LF_BYTE, CR_BYTE]
        omega
      · have hy10 : ¬(y = 10) := hy
        have hcond : ¬(data.getLast? = some LF_BYTE) := by
          rw [hlast]
          simp [hy]
        rw [with_capacity]
        simp only [read_to_buffer, hend, hslice]
        rw [chopTrailingLF, if_neg hcond]
        simp [move_reader_position, hxcr13, hy10, ReverseLines.mk.injEq, LF_BYTE, CR_BYTE]
        omega

/-- The full output of a reader over CR-free data, with any chunk size at
least 1: the reversed lines of the one-trailing-`LF`-chopped data, each
UTF-8-decoded. -/
theorem reverseLinesOutput_spec (cap : Nat) (data : List Nat) (hCR : CR_BYTE ∉ data)
    (hcap : 1 ≤ cap) :
    reverseLinesOutput cap data = (revLines (chopTrailingLF data)).map decorate := by
  rw [reverseLinesOutput, with_capacity_spec cap data hCR]
  have hchoplen : (chopTrailingLF data).length ≤ data.length := by
    rw [chopTrailingLF]
    by_cases h : data.getLast? = some LF_BYTE <;> simp [h]
  have htake : data.take (chopTrailingLF data).length = chopTrailingLF data := by
    rw [chopTrailingLF]
    by_cases h : data.getLast? = some LF_BYTE <;> simp [h, List.dropLast_eq_take]
  have := runNexts_spec data hCR (data.length + 1) ⟨(chopTrailingLF data).length, cap, false⟩
    (by simpa) (by simpa) rfl (by simp; omega)
  simp only at this
  rw [this, htake]

/-! ### Joining lines and reading them back -/

theorem joinLF_cons_cons (l m : List Nat) (rest : List (List Nat)) :
    joinLF (l :: m :: rest) = l ++ LF_BYTE :: joinLF (m :: rest) := rfl

theorem joinLF_cr_not_mem :
    ∀ (lines : List (List Nat)), (∀ l ∈ lines, CR_BYTE ∉ l) → CR_BYTE ∉ joinLF lines := by
  intro lines
  induction lines with
  | nil => intro _; simp [joinLF]
  | cons l ls ih =>
    intro hmem
    cases ls with
    | nil =>
      simpa [joinLF] using hmem l (List.mem_cons_self _ _)
    | cons m rest =>
      have hl : CR_BYTE ∉ l := hmem l (List.mem_cons_self _ _)
      have hrest : CR_BYTE ∉ joinLF (m :: rest) :=
        ih (fun l' hl' => hmem l' (List.mem_cons_of_mem _ hl'))
      intro hcontra
      rw [joinLF_cons_cons] at hcontra
      rcases List.mem_append.mp hcontra with h | h
      · exact hl h
      · rcases List.mem_cons.mp h with h | h
        · exact absurd h (by decide)
        · exact hrest h

theorem splitLF_joinLF :
    ∀ (lines : List (List Nat)), lines ≠ [] → (∀ l ∈ lines, LF_BYTE ∉ l) →
      splitLF (joinLF lines) = lines := by
  intro lines
  induction lines with
  | nil => intro h _; exact absurd rfl h
  | cons l ls ih =>
    intro _ hmem
    cases ls with
    | nil => simpa [joinLF] using splitLF_not_mem (hmem l (List.mem_cons_self _ _))
    | cons m rest =>
      rw [joinLF_cons_cons, splitLF_append_lf, splitLF_not_mem (hmem l (List.mem_cons_self _ _)),
        ih (by simp) (fun l' hl' => hmem l' (List.mem_cons_of_mem _ hl'))]
      rfl

theorem joinLF_eq_nil {m : List Nat} {rest : List (List Nat)}
    (h : joinLF (m :: rest) = []) : rest = [] ∧ m = [] := by
  cases rest with
  | nil => exact ⟨rfl, h⟩
  | cons r rest' => simp [joinLF] at h

theorem joinLF_getLast?_ne_lf :
    ∀ (lines : List (List Nat)), (∀ l ∈ lines, LF_BYTE ∉ l) →
      lines.getLast? ≠ some [] → (joinLF lines).getLast? ≠ some LF_BYTE := by
  intro lines
  induction lines with
  | nil => intro _ _; simp [joinLF]
  | cons l ls ih =>
    intro hmem hlast
    cases ls with
    | nil =>
      intro hcontra
      rw [joinLF] at hcontra
      exact hmem l (List.mem_cons_self _ _) (List.mem_of_mem_getLast? hcontra)
    | cons m rest =>
      have hJ : joinLF (m :: rest) ≠ [] := by
        intro h0
        obtain ⟨hr, hm⟩ := joinLF_eq_nil h0
        subst hr
        subst hm
        simp at hlast
      rw [joinLF_cons_cons, show LF_BYTE :: joinLF (m :: rest) = [LF_BYTE] ++ joinLF (m :: rest)
          from rfl, ← List.append_assoc,
        List.getLast?_append_of_ne_nil _ hJ]
      exact ih (fun l' hl' => hmem l' (List.mem_cons_of_mem _ hl'))
        (by simpa using hlast)

theorem revLines_joinLF (lines : List (List Nat)) (hne : lines ≠ [])
    (hmem : ∀ l ∈ lines, LF_BYTE ∉ l) (hhead : lines.head? ≠ some []) :
    revLines (joinLF lines) = lines.reverse := by
  rcases lines with _ | ⟨l0, rest⟩
  · exact absurd rfl hne
  have hsplit := splitLF_joinLF (l0 :: rest) (by simp) hmem
  have hl0 : ¬(l0 = []) := by simpa using hhead
  simp only [revLines, hsplit, if_neg hl0]

theorem map_decorate_ok {ls : List (List Nat)}
    (h : ∀ l ∈ ls, utf8Valid l = true) : ls.map decorate = ls.map Item.ok := by
  induction ls with
  | nil => rfl
  | cons l ls ih =>
    have hl := h l (List.mem_cons_self _ _)
    rw [List.map_cons, List.map_cons, ih (fun l' hl' => h l' (List.mem_cons_of_mem _ hl'))]
    simp [decorate, hl]

/-! ### Behaviour of the scan offset and the fallible loop -/

theorem finalizeLine_ne_ioFail (result : List Nat) : finalizeLine result ≠ Item.ioError := by
  rw [finalizeLine]
  split <;> simp

theorem scanFrom_offset_lt (buf : List Nat) :
    ∀ (i : Nat) (acc : List Nat) (off : Nat) (acc' : List Nat),
      scanFrom buf i acc = (some off, acc') → off < i := by
  intro i
  induction i with
  | zero =>
    intro acc off acc' h
    simp [scanFrom] at h
  | succ j ih =>
    intro acc off acc' h
    rw [scanFrom] at h
    by_cases hch : buf.getD j 0 = LF_BYTE
    · rw [if_pos hch] at h
      simp only [Prod.mk.injEq, Option.some.injEq] at h
      rw [← h.1]
      split <;> omega
    · rw [if_neg hch] at h
      have := ih _ _ _ h
      omega

theorem nextFal_loop_ioFail_is_error (data : List Nat) (fails : Nat → Bool) :
    ∀ (fuel : Nat) (s : ReverseLines) (ops : Nat) (result : List Nat)
      (s' : ReverseLines) (ops' : Nat),
      nextFal_loop data fails fuel s ops result = some (some Item.ioError, s', ops') →
      s'.is_error = true := by
  intro fuel
  induction fuel with
  | zero =>
    intro s ops result s' ops' h
    simp [nextFal_loop] at h
  | succ fuel ih =>
    intro s ops result s' ops' h
    rw [nextFal_loop] at h
    by_cases hp : s.reader_pos < 1
    · rw [if_pos hp] at h
      by_cases hres : result = []
      · rw [if_pos hres] at h
        simp at h
      · rw [if_neg hres] at h
        simp only [Option.some.injEq, Prod.mk.injEq] at h
        exact absurd h.1 (finalizeLine_ne_ioFail result)
    · rw [if_neg hp] at h
      dsimp only at h
      rcases hread : readFal data fails s ops (min s.buf_size s.reader_pos) with _ | ⟨buf, s1, ops1⟩
      · rw [hread] at h
        simp only [Option.some.injEq, Prod.mk.injEq] at h
        rw [← h.2.1]
      · rw [hread] at h
        dsimp only at h
        rcases hscan : scanFrom buf buf.length result with ⟨so, result1⟩
        rw [hscan] at h
        cases so with
        | some offset =>
          dsimp only at h
          by_cases hf : fails ops1 = true
          · rw [if_pos hf] at h
            simp only [Option.some.injEq, Prod.mk.injEq] at h
            rw [← h.2.1]
          · rw [if_neg hf] at h
            simp only [Option.some.injEq, Prod.mk.injEq] at h
            exact absurd h.1 (finalizeLine_ne_ioFail result1)
        | none => exact ih _ _ _ _ _ h

theorem scanFrom_none_acc (buf : List Nat) :
    ∀ (i : Nat) (acc acc' : List Nat), i ≤ buf.length →
      scanFrom buf i acc = (none, acc') → acc' = acc ++ (buf.take i).reverse := by
  intro i
  induction i with
  | zero =>
    intro acc acc' _ h
    rw [scanFrom] at h
    simp only [Prod.mk.injEq] at h
    rw [← h.2]
    simp
  | succ j ih =>
    intro acc acc' hij h
    rw [scanFrom] at h
    by_cases hch : buf.getD j 0 = LF_BYTE
    · rw [if_pos hch] at h
      simp at h
    · rw [if_neg hch] at h
      rw [ih (acc ++ [buf.getD j 0]) acc' (by omega) h,
        take_succ_getD buf j (by omega), List.reverse_append]
      simp

theorem nextFal_loop_none_eq (data : List Nat) (fails : Nat → Bool) :
    ∀ (fuel : Nat) (s : ReverseLines) (ops : Nat) (result : List Nat)
      (s' : ReverseLines) (ops' : Nat),
      s.reader_pos ≤ data.length →
      nextFal_loop data fails fuel s ops result = some (none, s', ops') →
      s' = s ∧ ops' = ops ∧ result = [] ∧ s.reader_pos < 1 := by
  intro fuel
  induction fuel with
  | zero =>
    intro s ops result s' ops' _ h
    simp [nextFal_loop] at h
  | succ fuel ih =>
    intro s ops result s' ops' hpos h
    rw [nextFal_loop] at h
    by_cases hp : s.reader_pos < 1
    · rw [if_pos hp] at h
      by_cases hres : result = []
      · rw [if_pos hres] at h
        simp only [Option.some.injEq, Prod.mk.injEq] at h
        exact ⟨h.2.1.symm, h.2.2.symm, hres, hp⟩
      · rw [if_neg hres] at h
        simp at h
    · rw [if_neg hp] at h
      dsimp only at h
      rcases hread : readFal data fails s ops (min s.buf_size s.reader_pos) with _ | ⟨buf, s1, ops1⟩
      · rw [hread] at h
        simp at h
      · have hs1 : s1.reader_pos = s.reader_pos - min s.buf_size s.reader_pos ∧
            buf = sliceEnd data s.reader_pos (min s.buf_size s.reader_pos) := by
          rw [readFal] at hread
          split at hread
          · simp at hread
          · simp only [Option.some.injEq, Prod.mk.injEq] at hread
            exact ⟨by rw [← hread.2.1], hread.1.symm⟩
        rw [hread] at h
        dsimp only at h
        rcases hscan : scanFrom buf buf.length result with ⟨so, result1⟩
        rw [hscan] at h
        cases so with
        | some offset =>
          dsimp only at h
          by_cases hf : fails ops1 = true
          · rw [if_pos hf] at h
            simp at h
          · rw [if_neg hf] at h
            simp at h
        | none =>
          -- The recursive call cannot return a `none` item here: that would
          -- force the accumulated result, hence the freshly read chunk, to be
          -- empty, so the chunk size was 0 and the cursor did not move below 1.
          exfalso
          have hbuflen : buf.length = min s.buf_size s.reader_pos := by
            rw [hs1.2]
            exact sliceEnd_length hpos (by omega)
          obtain ⟨_, _, hres1, hpos1⟩ :=
            ih s1 ops1 result1 s' ops' (by rw [hs1.1]; omega) h
          have hacc := scanFrom_none_acc buf buf.length result result1
            (le_refl _) hscan
          rw [List.take_length] at hacc
          rw [hres1] at hacc
          have hbufnil : buf = [] := by
            rcases List.append_eq_nil.mp hacc.symm with ⟨_, hrev⟩
            simpa using congrArg List.reverse hrev
          rw [hbufnil] at hbuflen
          simp only [List.length_nil] at hbuflen
          rw [hs1.1] at hpos1
          omega

theorem nextFal_loop_is_error_of_ne (data : List Nat) (fails : Nat → Bool) :
    ∀ (fuel : Nat) (s : ReverseLines) (ops : Nat) (result : List Nat)
      (item : Option Item) (s' : ReverseLines) (ops' : Nat),
      nextFal_loop data fails fuel s ops result = some (item, s', ops') →
      item ≠ some Item.ioError → s'.is_error = s.is_error := by
  intro fuel
  induction fuel with
  | zero =>
    intro s ops result item s' ops' h _
    simp [nextFal_loop] at h
  | succ fuel ih =>
    intro s ops result item s' ops' h hne
    rw [nextFal_loop] at h
    by_cases hp : s.reader_pos < 1
    · rw [if_pos hp] at h
      by_cases hres : result = []
      · rw [if_pos hres] at h
        simp only [Option.some.injEq, Prod.mk.injEq] at h
        rw [← h.2.1]
      · rw [if_neg hres] at h
        simp only [Option.some.injEq, Prod.mk.injEq] at h
        rw [← h.2.1]
    · rw [if_neg hp] at h
      dsimp only at h
      rcases hread : readFal data fails s ops (min s.buf_size s.reader_pos) with _ | ⟨buf, s1, ops1⟩
      · rw [hread] at h
        simp only [Option.some.injEq, Prod.mk.injEq] at h
        exact absurd (h.1 ▸ hne) (by simp)
      · have hs1err : s1.is_error = s.is_error := by
          rw [readFal] at hread
          split at hread
          · simp at hread
          · simp only [Option.some.injEq, Prod.mk.injEq] at hread
            rw [← hread.2.1]
        rw [hread] at h
        dsimp only at h
        rcases hscan : scanFrom buf buf.length result with ⟨so, result1⟩
        rw [hscan] at h
        cases so with
        | some offset =>
          dsimp only at h
          by_cases hf : fails ops1 = true
          · rw [if_pos hf] at h
            simp only [Option.some.injEq, Prod.mk.injEq] at h
            exact absurd (h.1 ▸ hne) (by simp)
          · rw [if_neg hf] at h
            simp only [Option.some.injEq, Prod.mk.injEq] at h
            rw [← h.2.1]
            exact hs1err
        | none =>
          rw [← hs1err]
          exact ih _ _ _ _ _ _ h hne

theorem nextFal_loop_pos_le (data : List Nat) (fails : Nat → Bool) :
    ∀ (fuel : Nat) (s : ReverseLines) (ops : Nat) (result : List Nat)
      (item : Option Item) (s' : ReverseLines) (ops' : Nat),
      s.reader_pos ≤ data.length →
      nextFal_loop data fails fuel s ops result = some (item, s', ops') →
      s'.reader_pos ≤ data.length := by
  intro fuel
  induction fuel with
  | zero =>
    intro s ops result item s' ops' _ h
    simp [nextFal_loop] at h
  | succ fuel ih =>
    intro s ops result item s' ops' hpos h
    rw [nextFal_loop] at h
    by_cases hp : s.reader_pos < 1
    · rw [if_pos hp] at h
      by_cases hres : result = []
      · rw [if_pos hres] at h
        simp only [Option.some.injEq, Prod.mk.injEq] at h
        rw [← h.2.1]
        exact hpos
      · rw [if_neg hres] at h
        simp only [Option.some.injEq, Prod.mk.injEq] at h
        rw [← h.2.1]
        exact hpos
    · rw [if_neg hp] at h
      dsimp only at h
      rcases hread : readFal data fails s ops (min s.buf_size s.reader_pos) with _ | ⟨buf, s1, ops1⟩
      · rw [hread] at h
        simp only [Option.some.injEq, Prod.mk.injEq] at h
        rw [← h.2.1]
        exact hpos
      · have hs1 : s1.reader_pos = s.reader_pos - min s.buf_size s.reader_pos ∧
            buf = sliceEnd data s.reader_pos (min s.buf_size s.reader_pos) := by
          rw [readFal] at hread
          split at hread
          · simp at hread
          · simp only [Option.some.injEq, Prod.mk.injEq] at hread
            exact ⟨by rw [← hread.2.1], hread.1.symm⟩
        rw [hread] at h
        dsimp only at h
        rcases hscan : scanFrom buf buf.length result with ⟨so, result1⟩
        rw [hscan] at h
        cases so with
        | some offset =>
          have hoff : offset < buf.length := scanFrom_offset_lt buf _ _ _ _ hscan
          have hbuflen : buf.length = min s.buf_size s.reader_pos := by
            rw [hs1.2]
            exact sliceEnd_length hpos (by omega)
          dsimp only at h
          by_cases hf : fails ops1 = true
          · rw [if_pos hf] at h
            simp only [Option.some.injEq, Prod.mk.injEq] at h
            rw [← h.2.1]
            dsimp only
            rw [hs1.1]
            omega
          · rw [if_neg hf] at h
            simp only [Option.some.injEq, Prod.mk.injEq] at h
            rw [← h.2.1]
            dsimp only
            rw [hs1.1]
            omega
        | none =>
          exact ih _ _ _ _ _ _ (by rw [hs1.1]; omega) h

/-! ### Termination of the scan loop -/

theorem next_loop_isSome (data : List Nat) :
    ∀ (fuel : Nat) (s : ReverseLines) (result : List Nat),
      1 ≤ s.buf_size → s.reader_pos + 1 ≤ fuel →
      (next_loop data fuel s result).isSome = true := by
  intro fuel
  induction fuel with
  | zero =>
    intro s result _ hf
    omega
  | succ fuel ih =>
    intro s result hcap hf
    rw [next_loop]
    by_cases hp : s.reader_pos < 1
    · rw [if_pos hp]
      by_cases hres : result = []
      · rw [if_pos hres]
        rfl
      · rw [if_neg hres]
        rfl
    · rw [if_neg hp]
      simp only [read_to_buffer]
      rcases hscan : scanFrom (sliceEnd data s.reader_pos (min s.buf_size s.reader_pos))
          (sliceEnd data s.reader_pos (min s.buf_size s.reader_pos)).length result
          with ⟨so, result1⟩
      cases so with
      | some offset => rfl
      | none =>
        apply ih
        · simpa using hcap
        · show s.reader_pos - min s.buf_size s.reader_pos + 1 ≤ fuel
          omega

theorem next_loop_zero_cap (data : List Nat) :
    ∀ (fuel : Nat) (s : ReverseLines) (result : List Nat),
      s.buf_size = 0 → 1 ≤ s.reader_pos →
      next_loop data fuel s result = none := by
  intro fuel
  induction fuel with
  | zero =>
    intro s result _ _
    rfl
  | succ fuel ih =>
    intro s result hcap hpos
    rw [next_loop, if_neg (by omega)]
    simp only [read_to_buffer]
    have hmin : min s.buf_size s.reader_pos = 0 := by
      rw [hcap]
      simp
    have hbuf : sliceEnd data s.reader_pos (min s.buf_size s.reader_pos) = [] := by
      rw [hmin, sliceEnd]
      refine List.drop_eq_nil_of_le ?_
      simp [List.length_take]
    rw [hbuf]
    rw [show scanFrom [] ([] : List Nat).length result = (none, result) from rfl]
    apply ih
    · simpa using hcap
    · show 1 ≤ s.reader_pos - min s.buf_size s.reader_pos
      omega

/-! ### No emitted line ever contains an `LF` byte -/

theorem scanFrom_no_lf (buf : List Nat) :
    ∀ (i : Nat) (acc : List Nat), LF_BYTE ∉ acc →
      LF_BYTE ∉ (scanFrom buf i acc).2 := by
  intro i
  induction i with
  | zero =>
    intro acc hacc
    simpa [scanFrom] using hacc
  | succ j ih =>
    intro acc hacc
    rw [scanFrom]
    by_cases hch : buf.getD j 0 = LF_BYTE
    · rw [if_pos hch]
      simpa using hacc
    · rw [if_neg hch]
      refine ih (acc ++ [buf.getD j 0]) ?_
      intro hmem
      rcases List.mem_append.mp hmem with h | h
      · exact hacc h
      · exact hch (List.mem_singleton.mp h).symm

theorem finalizeLine_ok_no_lf {result bs : List Nat} (h : LF_BYTE ∉ result)
    (heq : finalizeLine result = Item.ok bs) : LF_BYTE ∉ bs := by
  rw [finalizeLine] at heq
  split at heq
  · simp only [Item.ok.injEq] at heq
    rw [← heq]
    simpa using h
  · exact absurd heq (by simp)

theorem next_loop_ok_no_lf (data : List Nat) :
    ∀ (fuel : Nat) (s : ReverseLines) (result : List Nat) (item : Item)
      (s' : ReverseLines), LF_BYTE ∉ result →
      next_loop data fuel s result = some (some item, s') →
      ∀ bs, item = Item.ok bs → LF_BYTE ∉ bs := by
  intro fuel
  induction fuel with
  | zero =>
    intro s result item s' _ h
    simp [next_loop] at h
  | succ fuel ih =>
    intro s result item s' hres h bs hitem
    rw [next_loop] at h
    by_cases hp : s.reader_pos < 1
    · rw [if_pos hp] at h
      by_cases hre : result = []
      · rw [if_pos hre] at h
        simp at h
      · rw [if_neg hre] at h
        simp only [Option.some.injEq, Prod.mk.injEq] at h
        exact finalizeLine_ok_no_lf hres (h.1 ▸ hitem ▸ rfl)
    · rw [if_neg hp] at h
      simp only [read_to_buffer] at h
      rcases hscan : scanFrom (sliceEnd data s.reader_pos (min s.buf_size s.reader_pos))
          (sliceEnd data s.reader_pos (min s.buf_size s.reader_pos)).length result
          with ⟨so, result1⟩
      rw [hscan] at h
      have hres1 : LF_BYTE ∉ result1 := by
        have := scanFrom_no_lf (sliceEnd data s.reader_pos (min s.buf_size s.reader_pos))
          (sliceEnd data s.reader_pos (min s.buf_size s.reader_pos)).length result hres
        rw [hscan] at this
        exact this
      cases so with
      | some offset =>
        dsimp only at h
        simp only [Option.some.injEq, Prod.mk.injEq] at h
        exact finalizeLine_ok_no_lf hres1 (h.1 ▸ hitem ▸ rfl)
      | none => exact ih _ _ _ _ hres1 h bs hitem

theorem runNexts_ok_no_lf (data : List Nat) :
    ∀ (k : Nat) (s : ReverseLines) (item : Item),
      item ∈ runNexts data k s → ∀ bs, item = Item.ok bs → LF_BYTE ∉ bs := by
  intro k
  induction k with
  | zero =>
    intro s item h
    simp [runNexts] at h
  | succ k ih =>
    intro s item h bs hitem
    rw [runNexts] at h
    rcases hn : next data (s.reader_pos + 1) s with _ | ⟨it, s'⟩
    · rw [hn] at h
      simp at h
    · rw [hn] at h
      cases it with
      | none =>
        simp at h
      | some it0 =>
        simp only [List.mem_cons] at h
        rcases h with h | h
        · rw [next] at hn
          by_cases he : s.is_error = true
          · rw [if_pos he] at hn
            simp at hn
          · rw [if_neg he] at hn
            exact next_loop_ok_no_lf data _ _ _ _ _ (by simp) hn bs (h ▸ hitem)
        · exact ih s' item h bs hitem

/-! ### Cursor bounds -/

theorem with_capacity_pos_le (cap : Nat) (data : List Nat) :
    (with_capacity cap data).reader_pos ≤ data.length := by
  rw [with_capacity]
  simp only [read_to_buffer, move_reader_position]
  rcases hn : data.length with _ | n1
  · simp
  · rcases n1 with _ | n2
    · have h1 : (0 + 1) ⊓ 2 = 1 := by omega
      rw [if_pos h1]
      split
      all_goals simp
    · have h1 : ¬((n2 + 1 + 1) ⊓ 2 = 1) := by omega
      have h2 : (n2 + 1 + 1) ⊓ 2 = 2 := by omega
      rw [if_neg h1, if_pos h2]
      split <;> split <;> simp <;> omega

theorem iterFal_pos_le (data : List Nat) (fails : Nat → Bool) :
    ∀ (n : Nat) (p : ReverseLines × Nat), p.1.reader_pos ≤ data.length →
      (iterFal data fails n p).1.reader_pos ≤ data.length := by
  intro n
  induction n with
  | zero =>
    intro p h
    exact h
  | succ n ih =>
    intro p h
    rw [iterFal]
    rcases hn : nextFal data fails (p.1.reader_pos + 1) p.1 p.2 with _ | ⟨it, s', ops'⟩
    · exact h
    · apply ih
      show s'.reader_pos ≤ data.length
      rw [nextFal] at hn
      by_cases he : p.1.is_error = true
      · rw [if_pos he] at hn
        simp only [Option.some.injEq, Prod.mk.injEq] at hn
        rw [← hn.2.1]
        exact h
      · rw [if_neg he] at hn
        exact nextFal_loop_pos_le data fails _ _ _ _ _ _ _ h hn

/-! ### Claim theorems -/

/-- Claim C1, counterexample to the claim as stated: for the line sequence
`["", "A"]` (each line LF-free and CR-free), the joined source is `"\nA"`
and the reader yields only `["A"]`, not `["A", ""]`: the empty first line is
silently dropped (the scan returns `None` when the cursor reaches 0 with
nothing accumulated, so the segment before an `LF` at offset 0 is never
emitted). -/
theorem c1_round_trip_counterexample :
    (∀ l ∈ [([] : List Nat), [65]], LF_BYTE ∉ l ∧ CR_BYTE ∉ l ∧ utf8Valid l = true) ∧
    reverseLinesOutput DEFAULT_SIZE (joinLF [[], [65]]) ≠
      ([[], [65]] : List (List Nat)).reverse.map Item.ok := by
  decide

/-- Claim C1 (amended): for every source built by joining a finite ordered
sequence of LF-free, CR-free, valid-UTF-8 lines with a single `LF` between
consecutive lines (no trailing terminator), where additionally the first and
the last line are nonempty, iterating the reader to exhaustion yields exactly
that sequence of lines in reversed order, each as an `Ok` result. -/
theorem c1_round_trip (lines : List (List Nat))
    (hlf : ∀ l ∈ lines, LF_BYTE ∉ l) (hcr : ∀ l ∈ lines, CR_BYTE ∉ l)
    (hval : ∀ l ∈ lines, utf8Valid l = true)
    (hhead : lines.head? ≠ some []) (hlast : lines.getLast? ≠ some []) :
    reverseLinesOutput DEFAULT_SIZE (joinLF lines) = lines.reverse.map Item.ok := by
  rcases lines with _ | ⟨l0, rest⟩
  · rfl
  · have hcrdata := joinLF_cr_not_mem _ hcr
    rw [reverseLinesOutput_spec DEFAULT_SIZE _ hcrdata (by decide)]
    have hchop : chopTrailingLF (joinLF (l0 :: rest)) = joinLF (l0 :: rest) := by
      rw [chopTrailingLF, if_neg (joinLF_getLast?_ne_lf _ hlf hlast)]
    rw [hchop, revLines_joinLF _ (by simp) hlf hhead]
    exact map_decorate_ok (fun l hl => hval l (List.mem_reverse.mp hl))

/-- Witness for the amended claim C1 at the concrete line sequence
`["A", "BC"]`. -/
theorem c1_round_trip_witness :
    reverseLinesOutput DEFAULT_SIZE (joinLF [[65], [66, 67]]) =
      ([[65], [66, 67]] : List (List Nat)).reverse.map Item.ok :=
  c1_round_trip [[65], [66, 67]] (by decide) (by decide) (by decide) (by decide)
    (by decide)

/-- Claim C2, counterexample to the claim as stated: on the source
`"AB\r\nCD"`, chunk size 1 yields `["CD", "AB\r"]` (the `CR` of the `CRLF`
terminator leaks into the second item, because the `CR` is alone in its
one-byte chunk and the cross-chunk check never happens), while chunk size
4096 yields `["CD", "AB"]`. -/
theorem c2_chunk_size_counterexample :
    reverseLinesOutput 1 [65, 66, 13, 10, 67, 68] ≠
      reverseLinesOutput DEFAULT_SIZE [65, 66, 13, 10, 67, 68] := by
  decide

/-- Claim C2 (amended): for every CR-free source, the complete sequence of
items produced by a reader constructed with chunk size 1 equals, item for
item and in the same order, the sequence produced with chunk size 4096. -/
theorem c2_chunk_size_independent (data : List Nat) (hcr : CR_BYTE ∉ data) :
    reverseLinesOutput 1 data = reverseLinesOutput DEFAULT_SIZE data := by
  rw [reverseLinesOutput_spec 1 data hcr (le_refl 1),
    reverseLinesOutput_spec DEFAULT_SIZE data hcr (by decide)]

/-- Witness for the amended claim C2 at the concrete source `"A\nBC"`. -/
theorem c2_chunk_size_witness :
    reverseLinesOutput 1 [65, 10, 66, 67] = reverseLinesOutput DEFAULT_SIZE [65, 10, 66, 67] :=
  c2_chunk_size_independent [65, 10, 66, 67] (by decide)

/-- Claim C3, counterexample to the claim as stated: on the source
`"\r\nCD"` (default chunk size), the emitted items are `["CD", "\r"]`: the
`CR` of the `CRLF` terminator appears in an emitted line (the `LF` sits at
chunk index 1 and the `idx > 1` guard skips the `CR` check), and replacing
the `CRLF` by a bare `LF` changes the output. -/
theorem c3_crlf_counterexample :
    Item.ok [CR_BYTE] ∈ reverseLinesOutput DEFAULT_SIZE [13, 10, 67, 68] ∧
    reverseLinesOutput DEFAULT_SIZE [13, 10, 67, 68] ≠
      reverseLinesOutput DEFAULT_SIZE [10, 67, 68] := by
  decide

/-- Claim C3 (amended): for every source and every chunk size, no emitted
line ever contains an `LF` byte — bare-`LF` terminators are fully absorbed.
(`CRLF` absorption fails in general: the `CR` can leak, so `LF`/`CRLF`
substitution does not preserve output.) -/
theorem c3_no_lf_in_emitted (data : List Nat) (cap : Nat) (bs : List Nat)
    (h : Item.ok bs ∈ reverseLinesOutput cap data) : LF_BYTE ∉ bs :=
  runNexts_ok_no_lf data (data.length + 1) (with_capacity cap data) (Item.ok bs) h bs rfl

/-- Witness for the amended claim C3 at the concrete source `"\nCD"`. -/
theorem c3_no_lf_witness : LF_BYTE ∉ [67, 68] :=
  c3_no_lf_in_emitted [10, 67, 68] DEFAULT_SIZE [67, 68] (by decide)

/-- Claim C4, evaluation at the failing input: on the source `"A\rB"`
(non-empty, no trailing `LF` or `CRLF`), the constructor's trailing-byte
checks consume the final content byte `B` (the `CR` check fires on the
penultimate byte independently of any `LF`), leaving the cursor at 2 instead
of 3; the first and only item is `"A\r"`, not the final physical line
`"A\rB"`. -/
theorem c4_trailing_cr_normalization_bug :
    reverseLinesOutput DEFAULT_SIZE [65, 13, 66] = [Item.ok [65, 13]] ∧
    (with_capacity DEFAULT_SIZE [65, 13, 66]).reader_pos = 2 := by
  decide

/-- Claim C5, evaluation at the failing input: scanning the chunk
`"\r\nCD"`, the `LF` is found at chunk index 1 with a `CR` immediately
before it inside the same chunk, yet the computed reposition offset is 1,
not 0 — the `idx > 1` guard (src/lib.rs line 152) skips the reduction when
the `LF` is at chunk index 1.  End to end, the `CR` then reappears as the
content of a later item. -/
theorem c5_crlf_offset_bug :
    scanFrom [13, 10, 67, 68] 4 [] = (some 1, [68, 67]) ∧
    reverseLinesOutput DEFAULT_SIZE [13, 10, 67, 68] =
      [Item.ok [67, 68], Item.ok [13]] := by
  decide

/-- Claim C6: on the source bytes `ABCD\n\nXYZ\n\n\n`, the reader produces
exactly `""`, `""`, `"XYZ"`, `""`, `"ABCD"` in that order, each `Ok`, and
then nothing more (the run below is complete: the sixth call yields no
item). -/
theorem c6_blank_line_scenario :
    reverseLinesOutput DEFAULT_SIZE [65, 66, 67, 68, 10, 10, 88, 89, 90, 10, 10, 10] =
      [Item.ok [], Item.ok [], Item.ok [88, 89, 90], Item.ok [], Item.ok [65, 66, 67, 68]] := by
  show runNexts [65, 66, 67, 68, 10, 10, 88, 89, 90, 10, 10, 10] 13 ⟨11, 4096, false⟩ = _
  rw [runNexts_cons _ 12 _ ⟨10, 4096, false⟩ (Item.ok []) (by decide),
    runNexts_cons _ 11 _ ⟨9, 4096, false⟩ (Item.ok []) (by decide),
    runNexts_cons _ 10 _ ⟨5, 4096, false⟩ (Item.ok [88, 89, 90]) (by decide),
    runNexts_cons _ 9 _ ⟨4, 4096, false⟩ (Item.ok []) (by decide),
    runNexts_cons _ 8 _ ⟨0, 4096, false⟩ (Item.ok [65, 66, 67, 68]) (by decide),
    runNexts_stop _ 7 _ ⟨0, 4096, false⟩ (by decide)]

/-- Claim C7: a decode failure is local.  First conjunct: on the source
`"AB\n\xFF\nCD"`, the reader yields `Ok "CD"`, then the decode error for
the invalid line, then `Ok "AB"` — subsequent calls continue scanning
earlier content and produce the correct earlier lines.  Second conjunct: a
call of `next` that yields the `InvalidData` item never sets the faulted
flag (it leaves `is_error` false), for every source, failure oracle, state
and operation counter. -/
theorem c7_invalid_utf8_is_local :
    (reverseLinesOutput DEFAULT_SIZE [65, 66, 10, 255, 10, 67, 68] =
      [Item.ok [67, 68], Item.decodeError, Item.ok [65, 66]]) ∧
    (∀ (data : List Nat) (fails : Nat → Bool) (fuel : Nat) (s : ReverseLines)
       (ops : Nat) (s' : ReverseLines) (ops' : Nat),
       nextFal data fails fuel s ops = some (some Item.decodeError, s', ops') →
       s'.is_error = false) := by
  constructor
  · show runNexts [65, 66, 10, 255, 10, 67, 68] 8 ⟨7, 4096, false⟩ = _
    rw [runNexts_cons _ 7 _ ⟨4, 4096, false⟩ (Item.ok [67, 68]) (by decide),
      runNexts_cons _ 6 _ ⟨2, 4096, false⟩ Item.decodeError (by decide),
      runNexts_cons _ 5 _ ⟨0, 4096, false⟩ (Item.ok [65, 66]) (by decide),
      runNexts_stop _ 4 _ ⟨0, 4096, false⟩ (by decide)]
  · intro data fails fuel s ops s' ops' h
    rw [nextFal] at h
    by_cases he : s.is_error = true
    · rw [if_pos he] at h
      simp at h
    · rw [if_neg he] at h
      have hpres := nextFal_loop_is_error_of_ne data fails fuel s ops []
        (some Item.decodeError) s' ops' h (by simp)
      rw [hpres]
      simpa using he

/-- Witness for claim C7: the reader over the single invalid byte `0xFF`
yields the decode-error item and its faulted flag stays `false`. -/
theorem c7_invalid_utf8_witness : (⟨0, 1, false⟩ : ReverseLines).is_error = false :=
  c7_invalid_utf8_is_local.2 [255] noFail 2 ⟨1, 1, false⟩ 0 ⟨0, 1, false⟩ 3 (by decide)

/-- Claim C8: the reader never produces another item after it stops.  First
conjunct: once a call yields the I/O-error item, the state is faulted and
every subsequent call (any fuel, any operation counter) yields no item and
leaves the state unchanged.  Second conjunct: once a call yields no item
(from a cursor within the source), every subsequent call also yields no
item. -/
theorem c8_reader_stops :
    (∀ (data : List Nat) (fails : Nat → Bool) (fuel : Nat) (s : ReverseLines)
       (ops : Nat) (s' : ReverseLines) (ops' : Nat),
       nextFal data fails fuel s ops = some (some Item.ioError, s', ops') →
       ∀ (fuel2 ops2 : Nat), nextFal data fails fuel2 s' ops2 = some (none, s', ops2)) ∧
    (∀ (data : List Nat) (fails : Nat → Bool) (fuel : Nat) (s : ReverseLines)
       (ops : Nat) (s' : ReverseLines) (ops' : Nat),
       s.reader_pos ≤ data.length →
       nextFal data fails fuel s ops = some (none, s', ops') →
       ∀ (fuel2 ops2 : Nat), 1 ≤ fuel2 →
         nextFal data fails fuel2 s' ops2 = some (none, s', ops2)) := by
  constructor
  · intro data fails fuel s ops s' ops' h fuel2 ops2
    rw [nextFal] at h
    by_cases he : s.is_error = true
    · rw [if_pos he] at h
      simp at h
    · rw [if_neg he] at h
      have herr : s'.is_error = true :=
        nextFal_loop_ioFail_is_error data fails fuel s ops [] s' ops' h
      rw [nextFal, if_pos herr]
  · intro data fails fuel s ops s' ops' hpos h fuel2 ops2 hf2
    rw [nextFal] at h
    by_cases he : s.is_error = true
    · rw [if_pos he] at h
      simp only [Option.some.injEq, Prod.mk.injEq] at h
      rw [nextFal, if_pos (h.2.1 ▸ he)]
    · rw [if_neg he] at h
      obtain ⟨hs', _, _, hplt⟩ :=
        nextFal_loop_none_eq data fails fuel s ops [] s' ops' hpos h
      subst hs'
      rw [nextFal, if_neg he]
      rcases fuel2 with _ | f2
      · omega
      · rw [nextFal_loop, if_pos hplt, if_pos rfl]

/-- Witness for claim C8: over the one-byte source `"A"`, a source failing
every operation makes the first call yield the I/O-error item, after which
calls yield nothing; and a reader at cursor 0 that has yielded no item keeps
yielding nothing. -/
theorem c8_reader_stops_witness :
    nextFal [65] (fun _ => true) 1 ⟨1, 1, true⟩ 5 = some (none, ⟨1, 1, true⟩, 5) ∧
    nextFal [65] noFail 1 ⟨0, 1, false⟩ 7 = some (none, ⟨0, 1, false⟩, 7) :=
  ⟨c8_reader_stops.1 [65] (fun _ => true) 2 ⟨1, 1, false⟩ 0 ⟨1, 1, true⟩ 0 (by decide) 1 5,
   c8_reader_stops.2 [65] noFail 2 ⟨0, 1, false⟩ 0 ⟨0, 1, false⟩ 0 (by decide) (by decide) 1 7
     (by decide)⟩

/-- Claim C9: for every source, failure oracle, chunk size and number of
`next` calls, the reader's cursor position after construction followed by
those calls satisfies `0 ≤ cursor_position ≤ source_length`, where
`source_length` is the length recorded by the constructor's seek-to-end.
(A constructor whose own I/O fails returns an error and no reader, so every
constructed reader starts from the in-memory constructor state.) -/
theorem c9_cursor_in_range (data : List Nat) (fails : Nat → Bool) (cap n ops0 : Nat) :
    0 ≤ (iterFal data fails n (with_capacity cap data, ops0)).1.reader_pos ∧
    (iterFal data fails n (with_capacity cap data, ops0)).1.reader_pos ≤ data.length :=
  ⟨Nat.zero_le _, iterFal_pos_le data fails n (with_capacity cap data, ops0)
    (with_capacity_pos_le cap data)⟩

/-- Claim C10: each call of `next` terminates when the chunk size is at
least 1 — fuel `reader_pos + 1` (at most `source_length + 1` loop
iterations) always suffices, because every iteration that does not exit
reads at least one byte; and the bound indeed requires the precondition:
with chunk size 0 and a nonzero cursor the loop never terminates (no amount
of fuel yields a result). -/
theorem c10_next_terminates :
    (∀ (data : List Nat) (s : ReverseLines), 1 ≤ s.buf_size →
       (next_loop data (s.reader_pos + 1) s []).isSome = true) ∧
    (∀ (data : List Nat) (s : ReverseLines) (fuel : Nat), s.buf_size = 0 →
       1 ≤ s.reader_pos → next_loop data fuel s [] = none) :=
  ⟨fun data s hcap => next_loop_isSome data (s.reader_pos + 1) s [] hcap (le_refl _),
   fun data s fuel hcap hpos => next_loop_zero_cap data fuel s [] hcap hpos⟩

/-- Witness for claim C10: over the source `"A\n"`, fuel `cursor + 1`
produces a result at chunk size 1, and chunk size 0 produces none even with
generous fuel. -/
theorem c10_next_terminates_witness :
    (next_loop [65, 10] 3 ⟨2, 1, false⟩ []).isSome = true ∧
    next_loop [65, 10] 9 ⟨2, 0, false⟩ [] = none :=
  ⟨c10_next_terminates.1 [65, 10] ⟨2, 1, false⟩ (by decide),
   c10_next_terminates.2 [65, 10] ⟨2, 0, false⟩ 9 rfl (by decide)⟩

end ReverseLinesSpec
